import Mathlib

/-!
# Verification of the train/test pipeline of the `pb_seq_deep_learning_2021` notebooks

This file shallowly embeds the computational steps performed by the two
notebooks `day1_part1.ipynb` (QSAR regression) and `day1_part2.ipynb`
(MNIST classification): the seeded shuffle split, the standard scaler,
the confusion matrix, `argmax`, the dropout layer and model evaluation.
Machine floats are modelled by exact rationals; at every concrete input
used below the floating-point computation of the notebook and the exact
rational computation agree on the integer quantities at stake.
-/

section Splitter

/-- Models the seeded pseudo-random number stream behind `random.seed(s)`
followed by repeated draws (`random.shuffle` consumes one draw per loop
iteration).  The library generator is a Mersenne Twister; its exact output
values are irrelevant to every claim below (only determinism — the stream
is a pure function of the seed — and the range bound enforced by the
modulus in `shuffleGo` matter), so a linear congruential step stands in
for the twister. -/
def lcgStep (s : Nat) : Nat := (6364136223846793005 * s + 1442695040888963407) % (2 ^ 64)

/-- The `k`-th draw of the stream seeded with `seed`. -/
def lcgStream (seed : Nat) : Nat → Nat
  | 0 => lcgStep seed
  | k + 1 => lcgStep (lcgStream seed k)

/-- In-place exchange of positions `i` and `j` of a list, as performed by
`x[i], x[j] = x[j], x[i]` inside `random.shuffle`.  Out-of-range indices
leave the list unchanged (the shuffle loop never produces them). -/
def listSwap (l : List α) (i j : Nat) : List α :=
  match l[i]?, l[j]? with
  | some a, some b => (l.set i b).set j a
  | _, _ => l

/-- The loop of CPython's `random.shuffle`:
`for i in reversed(range(1, len(x))): j = randbelow(i+1); swap x[i], x[j]`.
The counter argument is the current value of `i`; each iteration draws one
random number and reduces it modulo `i+1` (the `randbelow(i+1)` bound). -/
def shuffleGo (rand : Nat → Nat) : Nat → List Nat → List Nat
  | 0, xs => xs
  | i + 1, xs => shuffleGo rand i (listSwap xs (i + 1) (rand (i + 1) % (i + 2)))

/-- `random.shuffle` on a list, driven by the draw stream `rand`. -/
def pyShuffle (rand : Nat → Nat) (xs : List Nat) : List Nat :=
  shuffleGo rand (xs.length - 1) xs

/-- The shuffled index array of the split cells:
`random.seed(seed); indices = np.arange(n); random.shuffle(indices)`. -/
def splitterPermutation (seed n : Nat) : List Nat :=
  pyShuffle (lcgStream seed) (List.range n)

/-- `n_train = int(n * f)`: Python's `int` truncates toward zero, which for
the nonnegative products arising here is the floor.  (At the notebook inputs
`1142 * 0.7` and `60000 * 0.8` the binary floating product and the exact
rational product have the same floor.) -/
def trainCount (n : Nat) (f : ℚ) : Nat := (⌊f * (n : ℚ)⌋).toNat

/-- The split cells of both notebooks:
`X[indices[:n_train]], X[indices[n_train:]]` — the first `int(n*f)` entries
of the shuffled index array form the train partition, the rest the
test/validation partition. -/
def splitIndices (seed n : Nat) (f : ℚ) : List Nat × List Nat :=
  let idx := splitterPermutation seed n
  (idx.take (trainCount n f), idx.drop (trainCount n f))

/-- NumPy fancy indexing `xs[idx]`: the row/entry list selected at the
positions of `idx` (every index produced by the split is in range; out of
range defaults are never exercised). -/
def npFancyIndex [Inhabited α] (xs : List α) (idx : List Nat) : List α :=
  idx.map (fun j => xs.getD j default)

/- Auxiliary permutation lemmas for the shuffle. -/

theorem set_perm_cons_eraseIdx (l : List α) :
    ∀ (n : Nat), n < l.length → ∀ a : α, (l.set n a).Perm (a :: l.eraseIdx n) := by
  induction l with
  | nil => intro n hn; simp at hn
  | cons x xs ih =>
    intro n hn a
    cases n with
    | zero => simp
    | succ m =>
      have hm : m < xs.length := by simpa using hn
      have h1 : (xs.set m a).Perm (a :: xs.eraseIdx m) := ih m hm a
      simp only [List.set_cons_succ, List.eraseIdx_cons_succ]
      exact ((h1.cons x).trans (List.Perm.swap a x _))

theorem cons_getElem_eraseIdx_perm (l : List α) (n : Nat) (hn : n < l.length) :
    (l.get ⟨n, hn⟩ :: l.eraseIdx n).Perm l := by
  have h := set_perm_cons_eraseIdx l n hn (l.get ⟨n, hn⟩)
  have hset : l.set n (l.get ⟨n, hn⟩) = l := by
    apply List.ext_getElem
    · simp
    · intro i h1 h2
      simp only [List.get_eq_getElem, List.getElem_set]
      split
      · next he => subst he; rfl
      · rfl
  rw [hset] at h
  exact h.symm

theorem swapSet_perm (l : List α) :
    ∀ (i j : Nat) (hi : i < l.length) (hj : j < l.length),
      ((l.set i (l.get ⟨j, hj⟩)).set j (l.get ⟨i, hi⟩)).Perm l := by
  induction l with
  | nil => intro i j hi _; simp at hi
  | cons x xs ih =>
    intro i j hi hj
    cases i with
    | zero =>
      cases j with
      | zero => simp
      | succ m =>
        have hm : m < xs.length := by simpa using hj
        simp only [List.get_eq_getElem, List.getElem_cons_succ, List.getElem_cons_zero,
          List.set_cons_zero, List.set_cons_succ]
        have h1 : (xs.set m x).Perm (x :: xs.eraseIdx m) :=
          set_perm_cons_eraseIdx xs m hm x
        have h2 : (xs[m] :: xs.set m x).Perm (xs[m] :: x :: xs.eraseIdx m) := h1.cons _
        have h3 : (xs[m] :: x :: xs.eraseIdx m).Perm (x :: xs[m] :: xs.eraseIdx m) :=
          List.Perm.swap x (xs[m]) _
        have h4 : (xs[m] :: xs.eraseIdx m).Perm xs :=
          cons_getElem_eraseIdx_perm xs m hm
        exact (h2.trans h3).trans (h4.cons x)
    | succ ii =>
      cases j with
      | zero =>
        have hii : ii < xs.length := by simpa using hi
        simp only [List.get_eq_getElem, List.getElem_cons_succ, List.getElem_cons_zero,
          List.set_cons_zero, List.set_cons_succ]
        have h1 : (xs.set ii x).Perm (x :: xs.eraseIdx ii) :=
          set_perm_cons_eraseIdx xs ii hii x
        have h2 : (xs[ii] :: xs.set ii x).Perm (xs[ii] :: x :: xs.eraseIdx ii) := h1.cons _
        have h3 : (xs[ii] :: x :: xs.eraseIdx ii).Perm (x :: xs[ii] :: xs.eraseIdx ii) :=
          List.Perm.swap x (xs[ii]) _
        have h4 : (xs[ii] :: xs.eraseIdx ii).Perm xs :=
          cons_getElem_eraseIdx_perm xs ii hii
        exact (h2.trans h3).trans (h4.cons x)
      | succ jj =>
        have hii : ii < xs.length := by simpa using hi
        have hjj : jj < xs.length := by simpa using hj
        simp only [List.get_eq_getElem, List.getElem_cons_succ, List.set_cons_succ]
        exact (ih ii jj hii hjj).cons x

theorem listSwap_perm (l : List α) (i j : Nat) : (listSwap l i j).Perm l := by
  unfold listSwap
  by_cases hi : i < l.length
  · by_cases hj : j < l.length
    · have h1 : l[i]? = some (l.get ⟨i, hi⟩) := by
        simp [List.getElem?_eq_getElem hi]
      have h2 : l[j]? = some (l.get ⟨j, hj⟩) := by
        simp [List.getElem?_eq_getElem hj]
      rw [h1, h2]
      exact swapSet_perm l i j hi hj
    · have h2 : l[j]? = none := by
        simp [List.getElem?_eq_none (by omega : l.length ≤ j)]
      rw [h2]
      cases l[i]? with
      | none => exact List.Perm.refl l
      | some a => exact List.Perm.refl l
  · have h1 : l[i]? = none := by
      simp [List.getElem?_eq_none (by omega : l.length ≤ i)]
    rw [h1]

theorem shuffleGo_perm (rand : Nat → Nat) :
    ∀ (fuel : Nat) (xs : List Nat), (shuffleGo rand fuel xs).Perm xs := by
  intro fuel
  induction fuel with
  | zero => intro xs; exact List.Perm.refl xs
  | succ i ih =>
    intro xs
    exact (ih _).trans (listSwap_perm xs (i + 1) (rand (i + 1) % (i + 2)))

theorem pyShuffle_perm (rand : Nat → Nat) (xs : List Nat) :
    (pyShuffle rand xs).Perm xs :=
  shuffleGo_perm rand (xs.length - 1) xs

theorem splitterPermutation_perm (seed n : Nat) :
    (splitterPermutation seed n).Perm (List.range n) :=
  pyShuffle_perm (lcgStream seed) (List.range n)

theorem splitterPermutation_length (seed n : Nat) :
    (splitterPermutation seed n).length = n := by
  have := (splitterPermutation_perm seed n).length_eq
  simpa using this

theorem splitterPermutation_nodup (seed n : Nat) :
    (splitterPermutation seed n).Nodup :=
  ((splitterPermutation_perm seed n).nodup_iff).mpr (List.nodup_range n)

theorem trainCount_le (n : Nat) (f : ℚ) (h1 : f ≤ 1) : trainCount n f ≤ n := by
  unfold trainCount
  have hfl : (⌊f * (n : ℚ)⌋ : ℤ) ≤ (n : ℤ) := by
    have h2 : f * (n : ℚ) ≤ (n : ℚ) := by
      have hn : (0 : ℚ) ≤ (n : ℚ) := by positivity
      nlinarith
    calc ⌊f * (n : ℚ)⌋ ≤ ⌊(n : ℚ)⌋ := Int.floor_le_floor h2
      _ = (n : ℤ) := Int.floor_natCast n
  omega

theorem splitIndices_fst_length (seed n : Nat) (f : ℚ) :
    (splitIndices seed n f).1.length = min (trainCount n f) n := by
  simp [splitIndices, splitterPermutation_length]

theorem splitIndices_snd_length (seed n : Nat) (f : ℚ) :
    (splitIndices seed n f).2.length = n - trainCount n f := by
  simp [splitIndices, splitterPermutation_length]

end Splitter

section SplitterClaims

theorem splitIndices_append (seed n : Nat) (f : ℚ) :
    (splitIndices seed n f).1 ++ (splitIndices seed n f).2 = splitterPermutation seed n :=
  List.take_append_drop _ _

theorem splitIndices_exhaustive (seed n : Nat) (f : ℚ) :
    ((splitIndices seed n f).1 ++ (splitIndices seed n f).2).Perm (List.range n) := by
  rw [splitIndices_append]
  exact splitterPermutation_perm seed n

theorem splitIndices_disjoint (seed n : Nat) (f : ℚ) :
    List.Disjoint (splitIndices seed n f).1 (splitIndices seed n f).2 := by
  have hnd : ((splitIndices seed n f).1 ++ (splitIndices seed n f).2).Nodup := by
    rw [splitIndices_append]
    exact splitterPermutation_nodup seed n
  exact (List.nodup_append.mp hnd).2.2

theorem splitIndices_fst_length_of_le (seed n : Nat) (f : ℚ) (h1 : f ≤ 1) :
    (splitIndices seed n f).1.length = trainCount n f := by
  rw [splitIndices_fst_length]
  exact Nat.min_eq_left (trainCount_le n f h1)

/-- C1 (amended): for every row count `n` and every training fraction
`f ∈ (0,1)`, the splitter produces a permutation of `{0,…,n-1}` and returns
two index lists that are disjoint, jointly exhaustive over `{0,…,n-1}`, of
sizes `⌊n·f⌋` (train, Python `int` truncation — not `round`) and
`n - ⌊n·f⌋` (test/validation), the train list being the first `⌊n·f⌋`
entries of the permutation. -/
theorem splitter_partition_floor (seed n : Nat) (f : ℚ) (h0 : 0 < f) (h1 : f < 1) :
    ((splitIndices seed n f).1 ++ (splitIndices seed n f).2).Perm (List.range n) ∧
    List.Disjoint (splitIndices seed n f).1 (splitIndices seed n f).2 ∧
    (splitIndices seed n f).1.length = (⌊f * (n : ℚ)⌋).toNat ∧
    (splitIndices seed n f).2.length = n - (⌊f * (n : ℚ)⌋).toNat ∧
    (splitIndices seed n f).1 = (splitterPermutation seed n).take ((⌊f * (n : ℚ)⌋).toNat) := by
  refine ⟨splitIndices_exhaustive seed n f, splitIndices_disjoint seed n f, ?_, ?_, rfl⟩
  · exact splitIndices_fst_length_of_le seed n f (le_of_lt h1)
  · exact splitIndices_snd_length seed n f

theorem splitter_partition_floor_witness :
    ((0 : ℚ) < 1/2 ∧ (1/2 : ℚ) < 1) ∧
    (((splitIndices 3 4 (1/2)).1 ++ (splitIndices 3 4 (1/2)).2).Perm (List.range 4) ∧
      List.Disjoint (splitIndices 3 4 (1/2)).1 (splitIndices 3 4 (1/2)).2 ∧
      (splitIndices 3 4 (1/2)).1.length = (⌊(1/2 : ℚ) * (4 : ℚ)⌋).toNat ∧
      (splitIndices 3 4 (1/2)).2.length = 4 - (⌊(1/2 : ℚ) * (4 : ℚ)⌋).toNat ∧
      (splitIndices 3 4 (1/2)).1 =
        (splitterPermutation 3 4).take ((⌊(1/2 : ℚ) * (4 : ℚ)⌋).toNat)) :=
  ⟨⟨by norm_num, by norm_num⟩,
    splitter_partition_floor 3 4 (1/2) (by norm_num) (by norm_num)⟩

/-- C1 (counterexample): the claimed train size `round(n·f)` fails on the
code, which computes `int(n·f)` (truncation).  At `n = 2`, `f = 9/10` the
train partition has 1 element whereas `round(2 · 9/10) = round(1.8) = 2`
(all rounding conventions agree at 1.8). -/
theorem splitter_round_size_counterexample :
    (splitIndices 0 2 (9/10)).1.length = 1 ∧
    (round ((9/10 : ℚ) * 2)).toNat = 2 ∧
    (splitIndices 0 2 (9/10)).1.length ≠ (round ((9/10 : ℚ) * 2)).toNat := by
  have h1 : (splitIndices 0 2 (9/10)).1.length = 1 := by
    rw [splitIndices_fst_length]
    norm_num [trainCount]
  have h2 : (round ((9/10 : ℚ) * 2)).toNat = 2 := by
    norm_num [round_eq]
    rfl
  exact ⟨h1, h2, by rw [h1, h2]; omega⟩

/-- C4: the split is deterministic — the same seed and the same row count
yield the identical permutation of `{0,…,n-1}` (the embedded generator
stream is a pure function of the seed), and hence the identical
train/test split for every fraction. -/
theorem splitter_deterministic (s1 s2 n1 n2 : Nat) (hs : s1 = s2) (hn : n1 = n2) :
    splitterPermutation s1 n1 = splitterPermutation s2 n2 ∧
    (splitterPermutation s1 n1).Perm (List.range n1) ∧
    ∀ f : ℚ, splitIndices s1 n1 f = splitIndices s2 n2 f := by
  subst hs; subst hn
  exact ⟨rfl, splitterPermutation_perm s1 n1, fun _ => rfl⟩

theorem splitter_deterministic_witness :
    (7 = 7) ∧ (5 = 5) ∧
    (splitterPermutation 7 5 = splitterPermutation 7 5 ∧
      (splitterPermutation 7 5).Perm (List.range 5) ∧
      ∀ f : ℚ, splitIndices 7 5 f = splitIndices 7 5 f) :=
  ⟨rfl, rfl, splitter_deterministic 7 7 5 5 rfl rfl⟩

/-- C5: concrete scenario sizes.  Tabular notebook: `n = 1142`, 70/30 split
gives train 799 and test 343 rows.  Image notebook: `n = 60000`, 80/20 split
gives proper-train 48000 and validation 12000 rows. -/
theorem scenario_split_sizes :
    (splitIndices 1234 1142 (7/10)).1.length = 799 ∧
    (splitIndices 1234 1142 (7/10)).2.length = 343 ∧
    (splitIndices 4826 60000 (8/10)).1.length = 48000 ∧
    (splitIndices 4826 60000 (8/10)).2.length = 12000 := by
  have ht1 : trainCount 1142 (7/10) = 799 := by
    unfold trainCount; norm_num; rfl
  have ht2 : trainCount 60000 (8/10) = 48000 := by
    unfold trainCount; norm_num; rfl
  refine ⟨?_, ?_, ?_, ?_⟩
  · rw [splitIndices_fst_length, ht1]; omega
  · rw [splitIndices_snd_length, ht1]
  · rw [splitIndices_fst_length, ht2]; omega
  · rw [splitIndices_snd_length, ht2]

theorem npFancyIndex_getD [Inhabited α] (xs : List α) (idx : List Nat) (i : Nat)
    (h : i < idx.length) :
    (npFancyIndex xs idx).getD i default = xs.getD (idx.getD i 0) default := by
  simp [npFancyIndex, List.getD_eq_getElem?_getD, List.getElem?_map,
    List.getElem?_eq_getElem h]

/-- C10: the split preserves the feature–label pairing.  Both `X` and `y`
are fancy-indexed by the same index list on each side of the split, so at
every position `i` of the train partition — and likewise of the
test/validation partition — the selected feature row and the selected
label come from one and the same original row index `j`. -/
theorem split_preserves_pairing (X : List (List ℚ)) (y : List ℚ) (seed n : Nat) (f : ℚ) :
    (∀ i, i < (splitIndices seed n f).1.length →
      ∃ j : Nat,
        (splitIndices seed n f).1.getD i 0 = j ∧
        (npFancyIndex X (splitIndices seed n f).1).getD i default = X.getD j default ∧
        (npFancyIndex y (splitIndices seed n f).1).getD i default = y.getD j default) ∧
    (∀ i, i < (splitIndices seed n f).2.length →
      ∃ j : Nat,
        (splitIndices seed n f).2.getD i 0 = j ∧
        (npFancyIndex X (splitIndices seed n f).2).getD i default = X.getD j default ∧
        (npFancyIndex y (splitIndices seed n f).2).getD i default = y.getD j default) :=
  ⟨fun i h =>
    ⟨(splitIndices seed n f).1.getD i 0, rfl,
      npFancyIndex_getD X _ i h, npFancyIndex_getD y _ i h⟩,
   fun i h =>
    ⟨(splitIndices seed n f).2.getD i 0, rfl,
      npFancyIndex_getD X _ i h, npFancyIndex_getD y _ i h⟩⟩

theorem split_preserves_pairing_witness :
    (0 < (splitIndices 0 2 (1/2)).1.length ∧ 0 < (splitIndices 0 2 (1/2)).2.length) ∧
    ((∃ j : Nat,
      (splitIndices 0 2 (1/2)).1.getD 0 0 = j ∧
      (npFancyIndex [[1], [2]] (splitIndices 0 2 (1/2)).1).getD 0 default
        = ([[1], [2]] : List (List ℚ)).getD j default ∧
      (npFancyIndex [3, 4] (splitIndices 0 2 (1/2)).1).getD 0 default
        = ([3, 4] : List ℚ).getD j default) ∧
    (∃ j : Nat,
      (splitIndices 0 2 (1/2)).2.getD 0 0 = j ∧
      (npFancyIndex [[1], [2]] (splitIndices 0 2 (1/2)).2).getD 0 default
        = ([[1], [2]] : List (List ℚ)).getD j default ∧
      (npFancyIndex [3, 4] (splitIndices 0 2 (1/2)).2).getD 0 default
        = ([3, 4] : List ℚ).getD j default)) := by
  have htr : 0 < (splitIndices 0 2 (1/2)).1.length := by
    rw [splitIndices_fst_length]
    norm_num [trainCount]
  have hte : 0 < (splitIndices 0 2 (1/2)).2.length := by
    rw [splitIndices_snd_length]
    norm_num [trainCount]
  have h := split_preserves_pairing [[1], [2]] [3, 4] 0 2 (1/2)
  exact ⟨⟨htr, hte⟩, h.1 0 htr, h.2 0 hte⟩

end SplitterClaims

section Scaler

/-- Per-column mean, `np.mean`: the sum of the column divided by the row
count. -/
def colMean (xs : List ℚ) : ℚ := xs.sum / xs.length

/-- Per-column population variance, `np.var` (sklearn's `StandardScaler`
uses the biased estimator): mean of squared deviations from the column
mean. -/
def colVar (xs : List ℚ) : ℚ :=
  (xs.map (fun x => (x - colMean xs) ^ 2)).sum / xs.length

/-- The error condition the specification postulates for a zero-variance
feature column.  The embedded `fit` never produces it: sklearn's
`StandardScaler` guards the division instead (see
`handleZerosInScale`). -/
inductive ScalerFailure
  | degenerateFeature
deriving DecidableEq

/-- The fitted state of the scaler: per-column means and variances
(`mean_` and `var_`). -/
structure ScalerParams where
  means : List ℚ
  vars : List ℚ
deriving DecidableEq

/-- `StandardScaler().fit(X)` of sklearn: computes the per-column mean and
population variance of the training matrix.  Zero variance is not an
error: sklearn's `_handle_zeros_in_scale` replaces a zero scale by 1, so
`fit` succeeds on every matrix — the `Except` never carries a failure. -/
def StandardScaler.fit (X : List (List ℚ)) : Except ScalerFailure ScalerParams :=
  Except.ok ⟨X.transpose.map colMean, X.transpose.map colVar⟩

/-- sklearn's `_handle_zeros_in_scale`: a zero scale (standard deviation)
is replaced by 1 so that the subsequent division is harmless. -/
def handleZerosInScale (s : ℚ) : ℚ := if s = 0 then 1 else s

/-- `scaler.transform` on one feature column: `(x - mean) / scale`
applied entrywise. -/
def StandardScaler.transformCol (μ scale : ℚ) (xs : List ℚ) : List ℚ :=
  xs.map (fun x => (x - μ) / scale)

theorem sum_map_sub (xs : List ℚ) (c : ℚ) :
    (xs.map (fun x => x - c)).sum = xs.sum - (xs.length : ℚ) * c := by
  induction xs with
  | nil => simp
  | cons a l ih =>
    simp only [List.map_cons, List.sum_cons, ih, List.length_cons]
    push_cast
    ring

theorem sum_map_div (xs : List ℚ) (g : ℚ → ℚ) (s : ℚ) :
    (xs.map (fun x => g x / s)).sum = (xs.map g).sum / s := by
  induction xs with
  | nil => simp
  | cons a l ih =>
    simp only [List.map_cons, List.sum_cons, ih]
    ring

theorem transformCol_sum (μ s : ℚ) (xs : List ℚ) :
    (StandardScaler.transformCol μ s xs).sum = (xs.sum - (xs.length : ℚ) * μ) / s := by
  unfold StandardScaler.transformCol
  rw [sum_map_div xs (fun x => x - μ) s, sum_map_sub]

theorem transformCol_length (μ s : ℚ) (xs : List ℚ) :
    (StandardScaler.transformCol μ s xs).length = xs.length :=
  List.length_map xs _

theorem transformCol_mean_zero (xs : List ℚ) (s : ℚ) (hne : xs ≠ []) :
    colMean (StandardScaler.transformCol (colMean xs) s xs) = 0 := by
  have hn : (xs.length : ℚ) ≠ 0 := by
    have := List.length_pos.mpr hne
    positivity
  unfold colMean
  rw [transformCol_length, transformCol_sum]
  field_simp

/-- C2: standardizing the training column with its own fitted mean and
standard deviation yields, under exact arithmetic, mean 0 and standard
deviation 1 for every column of non-zero variance (`s` is the fitted
standard deviation: the nonnegative square root of the column
variance). -/
theorem scaler_self_standardize (xs : List ℚ) (s : ℚ) (hne : xs ≠ [])
    (hvar : colVar xs ≠ 0) (hs : s ^ 2 = colVar xs) :
    colMean (StandardScaler.transformCol (colMean xs) s xs) = 0 ∧
    colVar (StandardScaler.transformCol (colMean xs) s xs) = 1 ∧
    ∀ t : ℚ, 0 ≤ t →
      t ^ 2 = colVar (StandardScaler.transformCol (colMean xs) s xs) → t = 1 := by
  have hn : (xs.length : ℚ) ≠ 0 := by
    have := List.length_pos.mpr hne
    positivity
  have hs0 : s ≠ 0 := by
    intro h
    rw [h] at hs
    exact hvar (by simpa using hs.symm)
  have hmean := transformCol_mean_zero xs s hne
  have hvar1 : colVar (StandardScaler.transformCol (colMean xs) s xs) = 1 := by
    unfold colVar
    rw [hmean, transformCol_length]
    have hmap : (StandardScaler.transformCol (colMean xs) s xs).map (fun y => (y - 0) ^ 2)
        = xs.map (fun x => ((x - colMean xs) ^ 2) / s ^ 2) := by
      unfold StandardScaler.transformCol
      rw [List.map_map]
      apply List.map_congr_left
      intro a _
      simp only [Function.comp]
      rw [sub_zero, div_pow]
    rw [hmap, sum_map_div xs (fun x => (x - colMean xs) ^ 2) (s ^ 2)]
    have hsum : (xs.map (fun x => (x - colMean xs) ^ 2)).sum
        = colVar xs * (xs.length : ℚ) := by
      unfold colVar
      field_simp
    rw [hsum, hs]
    field_simp
  refine ⟨hmean, hvar1, ?_⟩
  intro t ht h1
  rw [hvar1] at h1
  have hfac : (t - 1) * (t + 1) = 0 := by ring_nf; nlinarith [h1]
  rcases mul_eq_zero.mp hfac with h | h
  · linarith
  · linarith

theorem scaler_self_standardize_witness :
    (([0, 2] : List ℚ) ≠ [] ∧ colVar [0, 2] ≠ 0 ∧ (1 : ℚ) ^ 2 = colVar [0, 2]) ∧
    (colMean (StandardScaler.transformCol (colMean [0, 2]) 1 [0, 2]) = 0 ∧
      colVar (StandardScaler.transformCol (colMean [0, 2]) 1 [0, 2]) = 1 ∧
      ∀ t : ℚ, 0 ≤ t →
        t ^ 2 = colVar (StandardScaler.transformCol (colMean [0, 2]) 1 [0, 2]) → t = 1) := by
  have h1 : ([0, 2] : List ℚ) ≠ [] := by simp
  have h2 : colVar ([0, 2] : List ℚ) ≠ 0 := by
    norm_num [colVar, colMean]
  have h3 : (1 : ℚ) ^ 2 = colVar [0, 2] := by
    norm_num [colVar, colMean]
  exact ⟨⟨h1, h2, h3⟩, scaler_self_standardize [0, 2] 1 h1 h2 h3⟩

/-- C6 (counterexample): the claim says `fit` fails with a
DegenerateFeature condition on a zero-variance column.  On the constant
column `[5, 5]` (variance 0) the scaler's `fit` succeeds, returning the
per-column means and variances — it never produces an error. -/
theorem scaler_fit_zero_variance_counterexample :
    colVar [(5 : ℚ), 5] = 0 ∧
    StandardScaler.fit [[(5 : ℚ)], [5]] = Except.ok ⟨[5], [0]⟩ ∧
    StandardScaler.fit [[(5 : ℚ)], [5]] ≠ Except.error ScalerFailure.degenerateFeature := by
  refine ⟨by norm_num [colVar, colMean], ?_, by simp [StandardScaler.fit]⟩
  have htr : ([[(5 : ℚ)], [5]]).transpose = [[5, 5]] := rfl
  unfold StandardScaler.fit
  rw [htr]
  norm_num [colMean, colVar]

/-- C6 (amended): a zero-variance column does not make `fit` fail; the
zero standard deviation is guarded by `_handle_zeros_in_scale`, which
substitutes the non-zero constant 1, so transforming such a column merely
centers it (no division by zero occurs). -/
theorem scaler_zero_variance_guarded (X : List (List ℚ)) (xs : List ℚ) (s : ℚ)
    (hv : colVar xs = 0) (hs : s ^ 2 = colVar xs) :
    StandardScaler.fit X ≠ Except.error ScalerFailure.degenerateFeature ∧
    handleZerosInScale s = 1 ∧
    StandardScaler.transformCol (colMean xs) (handleZerosInScale s) xs
      = xs.map (fun x => x - colMean xs) := by
  have hs0 : s = 0 := by
    have h2 : s ^ 2 = 0 := by rw [hs, hv]
    exact (pow_eq_zero_iff (by norm_num : (2 : ℕ) ≠ 0)).mp h2
  have hg : handleZerosInScale s = 1 := by
    simp [handleZerosInScale, hs0]
  refine ⟨by simp [StandardScaler.fit], hg, ?_⟩
  rw [hg]
  unfold StandardScaler.transformCol
  simp

theorem scaler_zero_variance_guarded_witness :
    (colVar [(5 : ℚ), 5] = 0 ∧ (0 : ℚ) ^ 2 = colVar [(5 : ℚ), 5]) ∧
    (StandardScaler.fit [[(5 : ℚ)], [5]] ≠ Except.error ScalerFailure.degenerateFeature ∧
      handleZerosInScale 0 = 1 ∧
      StandardScaler.transformCol (colMean [(5 : ℚ), 5]) (handleZerosInScale 0) [(5 : ℚ), 5]
        = ([(5 : ℚ), 5]).map (fun x => x - colMean [(5 : ℚ), 5])) := by
  have hv : colVar [(5 : ℚ), 5] = 0 := by norm_num [colVar, colMean]
  have hs : (0 : ℚ) ^ 2 = colVar [(5 : ℚ), 5] := by rw [hv]; norm_num
  exact ⟨⟨hv, hs⟩, scaler_zero_variance_guarded [[(5 : ℚ)], [5]] [(5 : ℚ), 5] 0 hv hs⟩

end Scaler

section ConfusionMatrix

/-- Entry `[i][j]` of sklearn's `confusion_matrix(true_labels, pred_labels)`:
the number of rows whose true label is `i` and whose predicted label is
`j` (rows are the aligned positions of the two label lists). -/
def confusionEntry (ts ps : List Nat) (i j : Nat) : Nat :=
  (ts.zip ps).countP (fun q => q.1 == i && q.2 == j)

/-- `confusion_matrix(true_labels, pred_labels)` for `k` classes: the
`k × k` count matrix. -/
def confusion_matrix (k : Nat) (ts ps : List Nat) : List (List Nat) :=
  (List.range k).map (fun i => (List.range k).map (fun j => confusionEntry ts ps i j))

/-- Sum of row `i` of a count matrix. -/
def matrixRowSum (m : List (List Nat)) (i : Nat) : Nat := (m.getD i []).sum

/-- Trace (sum of diagonal entries) of a count matrix. -/
def matrixTrace (m : List (List Nat)) : Nat :=
  ((List.range m.length).map (fun i => (m.getD i []).getD i 0)).sum

/-- The accuracy metric reported by `evaluate` for classification: the
fraction of rows where the predicted label equals the true label. -/
def accuracy (ts ps : List Nat) : ℚ :=
  ((ts.zip ps).countP (fun q => q.1 == q.2) : ℚ) / (ts.length : ℚ)

theorem sum_map_range (f : Nat → Nat) (k : Nat) :
    ((List.range k).map f).sum = ∑ j in Finset.range k, f j := by
  induction k with
  | zero => simp
  | succ n ih =>
    rw [List.range_succ, List.map_append, List.sum_append, Finset.sum_range_succ, ih]
    simp

theorem sum_ite_pair_snd (t p k i : Nat) (hk : p < k) :
    ∑ j in Finset.range k, (if (t == i && p == j) = true then 1 else 0)
      = if (t == i) = true then 1 else 0 := by
  by_cases h1 : t = i
  · simp only [h1, beq_self_eq_true, Bool.true_and, beq_iff_eq]
    rw [Finset.sum_ite_eq (Finset.range k) p (fun _ => 1)]
    simp [Finset.mem_range.mpr hk]
  · simp [h1, beq_iff_eq]

theorem sum_ite_pair_diag (t p k : Nat) (hk : t < k) :
    ∑ i in Finset.range k, (if (t == i && p == i) = true then 1 else 0)
      = if (t == p) = true then 1 else 0 := by
  by_cases h1 : t = p
  · subst h1
    simp only [Bool.and_self, beq_self_eq_true, if_true, beq_iff_eq]
    rw [Finset.sum_ite_eq (Finset.range k) t (fun _ => 1)]
    simp [Finset.mem_range.mpr hk]
  · have hsimp : ∀ i : Nat, ((t == i && p == i) : Bool) = false := by
      intro i
      by_cases h2 : t = i
      · by_cases h3 : p = i
        · exact absurd (by omega : t = p) h1
        · simp [h3]
      · simp [h2]
    simp [hsimp, h1]

theorem countP_row_decompose (k i : Nat) :
    ∀ (l : List (Nat × Nat)), (∀ q ∈ l, q.2 < k) →
      ∑ j in Finset.range k, l.countP (fun q => q.1 == i && q.2 == j)
        = l.countP (fun q => q.1 == i) := by
  intro l
  induction l with
  | nil => simp
  | cons a l ih =>
    intro hk
    have ha : a.2 < k := hk a (List.mem_cons_self a l)
    have hl : ∀ q ∈ l, q.2 < k := fun q hq => hk q (List.mem_cons_of_mem a hq)
    simp only [List.countP_cons]
    rw [Finset.sum_add_distrib, ih hl]
    congr 1
    exact sum_ite_pair_snd a.1 a.2 k i ha

theorem countP_diag_decompose (k : Nat) :
    ∀ (l : List (Nat × Nat)), (∀ q ∈ l, q.1 < k) →
      ∑ i in Finset.range k, l.countP (fun q => q.1 == i && q.2 == i)
        = l.countP (fun q => q.1 == q.2) := by
  intro l
  induction l with
  | nil => simp
  | cons a l ih =>
    intro hk
    have ha : a.1 < k := hk a (List.mem_cons_self a l)
    have hl : ∀ q ∈ l, q.1 < k := fun q hq => hk q (List.mem_cons_of_mem a hq)
    simp only [List.countP_cons]
    rw [Finset.sum_add_distrib, ih hl]
    congr 1
    exact sum_ite_pair_diag a.1 a.2 k ha

theorem zip_countP_fst (i : Nat) :
    ∀ (ts ps : List Nat), ts.length = ps.length →
      (ts.zip ps).countP (fun q => q.1 == i) = ts.count i := by
  intro ts
  induction ts with
  | nil => intro ps _; simp
  | cons t ts ih =>
    intro ps h
    cases ps with
    | nil => simp at h
    | cons p ps =>
      simp only [List.zip_cons_cons, List.countP_cons, List.count_cons]
      rw [ih ps (by simpa using h)]

theorem getD_map_range (f : Nat → α) (k i : Nat) (hi : i < k) (d : α) :
    ((List.range k).map f).getD i d = f i := by
  rw [List.getD_eq_getElem?_getD, List.getElem?_map]
  rw [List.getElem?_range hi]
  rfl

theorem confusion_matrix_row (k : Nat) (ts ps : List Nat) (i : Nat) (hi : i < k) :
    (confusion_matrix k ts ps).getD i []
      = (List.range k).map (fun j => confusionEntry ts ps i j) := by
  unfold confusion_matrix
  exact getD_map_range _ k i hi []

theorem confusion_matrix_entry (k : Nat) (ts ps : List Nat) (i j : Nat)
    (hi : i < k) (hj : j < k) :
    ((confusion_matrix k ts ps).getD i []).getD j 0 = confusionEntry ts ps i j := by
  rw [confusion_matrix_row k ts ps i hi]
  exact getD_map_range _ k j hj 0

theorem confusion_matrix_length (k : Nat) (ts ps : List Nat) :
    (confusion_matrix k ts ps).length = k := by
  unfold confusion_matrix
  simp

/-- C3: for `k` classes and equally long label lists whose labels all lie
below `k`, the confusion matrix is `k × k`; entry `[i][j]` counts the rows
with true class `i` and predicted class `j`; each row sum `i` equals the
number of occurrences of true label `i`; and the trace divided by the row
count equals the accuracy (fraction of rows with correct prediction). -/
theorem confusion_matrix_spec (k : Nat) (ts ps : List Nat)
    (hlen : ts.length = ps.length)
    (hts : ∀ t ∈ ts, t < k) (hps : ∀ p ∈ ps, p < k) :
    ((confusion_matrix k ts ps).length = k ∧
      ∀ i, i < k → ((confusion_matrix k ts ps).getD i []).length = k) ∧
    (∀ i j, i < k → j < k →
      ((confusion_matrix k ts ps).getD i []).getD j 0
        = (ts.zip ps).countP (fun q => q.1 == i && q.2 == j)) ∧
    (∀ i, i < k → matrixRowSum (confusion_matrix k ts ps) i = ts.count i) ∧
    ((matrixTrace (confusion_matrix k ts ps) : ℚ) / (ts.length : ℚ) = accuracy ts ps) := by
  have hsnd : ∀ q ∈ ts.zip ps, q.2 < k := by
    intro q hq
    obtain ⟨q1, q2⟩ := q
    exact hps q2 (List.of_mem_zip hq).2
  have hfst : ∀ q ∈ ts.zip ps, q.1 < k := by
    intro q hq
    obtain ⟨q1, q2⟩ := q
    exact hts q1 (List.of_mem_zip hq).1
  refine ⟨⟨confusion_matrix_length k ts ps, ?_⟩, ?_, ?_, ?_⟩
  · intro i hi
    rw [confusion_matrix_row k ts ps i hi]
    simp
  · intro i j hi hj
    rw [confusion_matrix_entry k ts ps i j hi hj]
    rfl
  · intro i hi
    unfold matrixRowSum
    rw [confusion_matrix_row k ts ps i hi, sum_map_range]
    simp only [confusionEntry]
    rw [countP_row_decompose k i (ts.zip ps) hsnd, zip_countP_fst i ts ps hlen]
  · have htr : matrixTrace (confusion_matrix k ts ps)
        = (ts.zip ps).countP (fun q => q.1 == q.2) := by
      unfold matrixTrace
      rw [confusion_matrix_length k ts ps, sum_map_range]
      rw [Finset.sum_congr rfl (fun i hi => by
        rw [confusion_matrix_entry k ts ps i i
          (Finset.mem_range.mp hi) (Finset.mem_range.mp hi)])]
      exact countP_diag_decompose k (ts.zip ps) hfst
    rw [htr]
    rfl

theorem confusion_matrix_spec_witness :
    (([0, 1, 1] : List Nat).length = ([0, 0, 1] : List Nat).length ∧
      (∀ t ∈ ([0, 1, 1] : List Nat), t < 2) ∧
      (∀ p ∈ ([0, 0, 1] : List Nat), p < 2)) ∧
    (((confusion_matrix 2 [0, 1, 1] [0, 0, 1]).length = 2 ∧
      ∀ i, i < 2 → ((confusion_matrix 2 [0, 1, 1] [0, 0, 1]).getD i []).length = 2) ∧
    (∀ i j, i < 2 → j < 2 →
      ((confusion_matrix 2 [0, 1, 1] [0, 0, 1]).getD i []).getD j 0
        = (([0, 1, 1] : List Nat).zip [0, 0, 1]).countP (fun q => q.1 == i && q.2 == j)) ∧
    (∀ i, i < 2 → matrixRowSum (confusion_matrix 2 [0, 1, 1] [0, 0, 1]) i
        = ([0, 1, 1] : List Nat).count i) ∧
    ((matrixTrace (confusion_matrix 2 [0, 1, 1] [0, 0, 1]) : ℚ)
        / (([0, 1, 1] : List Nat).length : ℚ) = accuracy [0, 1, 1] [0, 0, 1])) := by
  have h1 : ([0, 1, 1] : List Nat).length = ([0, 0, 1] : List Nat).length := rfl
  have h2 : ∀ t ∈ ([0, 1, 1] : List Nat), t < 2 := by decide
  have h3 : ∀ p ∈ ([0, 0, 1] : List Nat), p < 2 := by decide
  exact ⟨⟨h1, h2, h3⟩, confusion_matrix_spec 2 [0, 1, 1] [0, 0, 1] h1 h2 h3⟩

end ConfusionMatrix

section Argmax

/-- The scanning loop of NumPy's `argmax`: walk the remaining entries,
keeping the index `bi` and value `bv` of the best element seen so far and
replacing them only on a strictly greater value — so the first occurrence
of the maximum wins. -/
def argmaxGo : List ℚ → Nat → Nat → ℚ → Nat
  | [], _, bi, _ => bi
  | x :: xs, i, bi, bv => if bv < x then argmaxGo xs (i + 1) i x else argmaxGo xs (i + 1) bi bv

/-- `np.argmax` on a vector (`argmax(axis=-1)` applied to one row of class
probabilities): index of the first maximum; NumPy returns 0 on the empty
input only by raising, the embedded total function returns 0 there. -/
def npArgmax : List ℚ → Nat
  | [] => 0
  | x :: xs => argmaxGo xs 1 0 x

theorem argmaxGo_spec (L : List ℚ) :
    ∀ (rest : List ℚ) (i bi : Nat) (bv : ℚ),
      rest = L.drop i → i ≤ L.length → bi < i → bv = L.getD bi 0 →
      (∀ j, j < i → L.getD j 0 ≤ bv) → (∀ j, j < bi → L.getD j 0 < bv) →
      (argmaxGo rest i bi bv < L.length ∧
        (∀ j, j < L.length → L.getD j 0 ≤ L.getD (argmaxGo rest i bi bv) 0) ∧
        (∀ j, j < argmaxGo rest i bi bv → L.getD j 0 < L.getD (argmaxGo rest i bi bv) 0)) := by
  intro rest
  induction rest with
  | nil =>
    intro i bi bv hrest hi hbi hbv hle hlt
    have hlen : L.length ≤ i := by
      by_contra hc
      push_neg at hc
      have := List.drop_eq_nil_iff.mp hrest.symm
      omega
    have hieq : i = L.length := by omega
    simp only [argmaxGo]
    refine ⟨by omega, ?_, ?_⟩
    · intro j hj
      rw [← hbv]
      exact hle j (by omega)
    · intro j hj
      rw [← hbv]
      exact hlt j hj
  | cons x xs ih =>
    intro i bi bv hrest hi hbi hbv hle hlt
    have hilen : i < L.length := by
      by_contra hc
      push_neg at hc
      have : L.drop i = [] := List.drop_eq_nil_of_le hc
      rw [this] at hrest
      exact List.noConfusion hrest
    have hx : x = L.getD i 0 := by
      have h0 : (x :: xs)[0]? = some x := by simp
      rw [hrest] at h0
      rw [List.getElem?_drop] at h0
      simp only [Nat.add_zero] at h0
      rw [List.getD_eq_getElem?_getD, h0]
      rfl
    have hxs : xs = L.drop (i + 1) := by
      have h1 : (x :: xs).drop 1 = xs := rfl
      rw [hrest, List.drop_drop] at h1
      exact h1.symm
    simp only [argmaxGo]
    by_cases hbvx : bv < x
    · rw [if_pos hbvx]
      apply ih (i + 1) i x hxs (by omega) (by omega) hx
      · intro j hj
        by_cases hji : j < i
        · exact le_of_lt (lt_of_le_of_lt (hle j hji) hbvx)
        · have : j = i := by omega
          rw [this, ← hx]
      · intro j hj
        exact lt_of_le_of_lt (hle j hj) hbvx
    · rw [if_neg hbvx]
      push_neg at hbvx
      apply ih (i + 1) bi bv hxs (by omega) (by omega) hbv
      · intro j hj
        by_cases hji : j < i
        · exact hle j hji
        · have : j = i := by omega
          rw [this, ← hx]
          exact hbvx
      · exact hlt

/-- C8: for a non-empty row of predicted values, `argmax` returns an index
in range carrying a maximal value, and every earlier index carries a
strictly smaller value — i.e. the lowest index among those attaining the
maximum (first-maximum tie-breaking). -/
theorem argmax_first_maximum (xs : List ℚ) (h : xs ≠ []) :
    npArgmax xs < xs.length ∧
    (∀ j, j < xs.length → xs.getD j 0 ≤ xs.getD (npArgmax xs) 0) ∧
    (∀ j, j < npArgmax xs → xs.getD j 0 < xs.getD (npArgmax xs) 0) := by
  cases xs with
  | nil => exact absurd rfl h
  | cons x l =>
    have hres := argmaxGo_spec (x :: l) l 1 0 x rfl
      (by simp) (by omega) rfl
      (fun j hj => by
        have : j = 0 := by omega
        rw [this]
        exact le_refl _)
      (fun j hj => by omega)
    exact hres

theorem argmax_first_maximum_witness :
    (([1, 3, 3, 2] : List ℚ) ≠ []) ∧
    (npArgmax [1, 3, 3, 2] < ([1, 3, 3, 2] : List ℚ).length ∧
      (∀ j, j < ([1, 3, 3, 2] : List ℚ).length →
        ([1, 3, 3, 2] : List ℚ).getD j 0 ≤ ([1, 3, 3, 2] : List ℚ).getD (npArgmax [1, 3, 3, 2]) 0) ∧
      (∀ j, j < npArgmax [1, 3, 3, 2] →
        ([1, 3, 3, 2] : List ℚ).getD j 0 < ([1, 3, 3, 2] : List ℚ).getD (npArgmax [1, 3, 3, 2]) 0)) :=
  ⟨by simp, argmax_first_maximum [1, 3, 3, 2] (by simp)⟩

end Argmax

section Dropout

/-- The Keras `Dropout(rate)` layer.  During a training step each
activation is either kept and rescaled by `1/(1-rate)` or zeroed; the
Boolean mask stands for the layer's random Bernoulli draw (`true` =
kept).  At inference (`training = false`) the layer passes its input
through untouched. -/
def dropoutLayer (rate : ℚ) (training : Bool) (mask : List Bool) (xs : List ℚ) : List ℚ :=
  if training then
    (xs.zip mask).map (fun q => if q.2 then q.1 / (1 - rate) else 0)
  else xs

/-- C7: the `Dropout(0.2)` layer of ANN2 behaves as the identity at
inference time — no activation is zeroed and none is rescaled, for every
input vector and every mask draw. -/
theorem dropout_inference_identity (mask : List Bool) (xs : List ℚ) :
    dropoutLayer (1/5) false mask xs = xs := rfl

end Dropout

section Evaluator

/-- The parameters of the zero-hidden-layer network ANN1 (a single dense
unit): one weight per input feature plus a bias. -/
structure LinModel where
  w : List ℚ
  b : ℚ

def dotQ : List ℚ → List ℚ → ℚ
  | [], _ => 0
  | _ :: _, [] => 0
  | x :: xs, w :: ws => x * w + dotQ xs ws

/-- The dense unit's output on one input row. -/
def predictRow (m : LinModel) (x : List ℚ) : ℚ := dotQ m.w x + m.b

/-- The forward-only pass of `model.evaluate`: the rows are processed in
order; every step reads the parameters and hands them on unchanged (a
forward pass has no parameter update), and the pass returns the
predictions together with the final parameter state. -/
def forwardPass : LinModel → List (List ℚ) → List ℚ × LinModel
  | m, [] => ([], m)
  | m, r :: rs =>
    let step := (predictRow m r, m)
    let rest := forwardPass step.2 rs
    (step.1 :: rest.1, rest.2)

/-- The compiled loss `'mse'`: mean squared difference between target and
prediction. -/
def mseLoss (yt yp : List ℚ) : ℚ :=
  ((yt.zip yp).map (fun q => (q.1 - q.2) ^ 2)).sum / (yt.length : ℚ)

/-- `model.evaluate(X, y)`: run the forward pass and score the
predictions with the compiled loss; returns the loss and the parameter
state after evaluation. -/
def modelEvaluate (m : LinModel) (X : List (List ℚ)) (y : List ℚ) : ℚ × LinModel :=
  let fp := forwardPass m X
  (mseLoss y fp.1, fp.2)

/-- The per-epoch validation scoring of `fit(..., validation_data=...)`:
the compiled loss of the model's predictions on the held-out partition —
a pure function of parameters and data. -/
def validationScore (m : LinModel) (X : List (List ℚ)) (y : List ℚ) : ℚ :=
  mseLoss y (X.map (predictRow m))

theorem forwardPass_eq (m : LinModel) :
    ∀ X : List (List ℚ), forwardPass m X = (X.map (predictRow m), m) := by
  intro X
  induction X with
  | nil => rfl
  | cons r rs ih => simp [forwardPass, ih]

/-- C9: `evaluate` is a pure function of the model parameters and the
data: the parameter state after evaluation is the parameter state before,
and the returned loss is exactly the quantity computed by validation
scoring during training on the same partition. -/
theorem evaluate_pure (m : LinModel) (X : List (List ℚ)) (y : List ℚ) :
    (modelEvaluate m X y).2 = m ∧
    (modelEvaluate m X y).1 = validationScore m X y := by
  have h := forwardPass_eq m X
  exact ⟨by simp [modelEvaluate, h], by simp [modelEvaluate, validationScore, h]⟩

end Evaluator
